import Mathlib

/-!
Shallow embedding of the core of `bitceptron-retriever` (Rust), covering:

* `src/explorer/exploration_path.rs` — the exploration mini-language parser
  (`ExplorationPath::new` and its regex helpers) and the path enumerators
  (`num_of_paths`, `generate_derivation_paths_for_exploration_path`, the
  sweep variants);
* `src/uspk_set.rs` — the unspent script-pubkey set
  (`from_dump_file`, `search_for_path_descriptor_pairs_and_return_those_present`);
* `src/retriever.rs` — the stream-order of `create_derivation_path_stream`
  and the finds bookkeeping of `get_details_of_finds_from_bitcoincore` /
  `get_detailed_finds`;
* `src/explorer/mod.rs` — the base-path × exploration-path combination loop
  of `Explorer::new`.

Conventions of the embedding:
* Rust strings are `List Char`; `u32`/`u64` values are `Nat`, with the
  machine arithmetic made explicit wherever the source computes in a
  fixed width: the `str::parse::<u32>` bound in the parser, the `< 2^31`
  bound of BIP32 child indices, the `u32` wrap-around of
  `ExplorationStep::num_children` and the `u64` wrap-around of the
  `num_of_paths` / sweep-size folds (release-mode wrapping; a debug build
  would panic instead, so beyond the no-overflow bounds the exact value
  is lost either way).
* A Rust function that can panic (an `unwrap` on a failing value) is
  modelled with result type `Option _`, `none` denoting the panic.
* A Rust `Result<T, RetrieverError>` is `Except RetrieverError T`.
* A `bitcoin::bip32::DerivationPath` is the list of its child numbers
  (the leading `m` is the empty list).
-/

/-- Mirror of `RetrieverError` (src/error.rs). The payloads carried by the
Rust variants are external error values and are dropped here; only the
variant tags matter to the embedded code. -/
inductive RetrieverError where
  | BitcoincoreRpcCrateError
  | JsonRpcHttpError
  | BitcoincoreRpcUnreachable
  | DumpFileAlreadyExistsInPath
  | IoError
  | ConsensusEncodeError
  | InvalidExplorationPath
  | Bip32Error
  | InvalidStepRange
  | Bip39Error
  | MiniscriptError
  | Secp256k1Error
  | NoDumpFileInDataDir
  | UnspentScriptPublicKeySetIsNotPopulated
  | NoSearchHasBeenPerformed
  | DetailsHaveNotBeenFetched
  | ConfigError
  | TokioJoinError
  | PopulatingUSPKSetInProgress
  | USPKSetAlreadyPopulated
deriving DecidableEq, Repr

instance {ε α : Type} [DecidableEq ε] [DecidableEq α] :
    DecidableEq (Except ε α) := fun x y =>
  match x, y with
  | .ok a, .ok b =>
    if h : a = b then isTrue (by rw [h])
    else isFalse (by intro hc; cases hc; exact h rfl)
  | .ok _, .error _ => isFalse (by intro hc; cases hc)
  | .error _, .ok _ => isFalse (by intro hc; cases hc)
  | .error e, .error f =>
    if h : e = f then isTrue (by rw [h])
    else isFalse (by intro hc; cases hc; exact h rfl)

/-- Mirror of `ExplorationStepHardness` (src/explorer/exploration_path.rs). -/
inductive ExplorationStepHardness where
  | Hardened
  | Normal
  | HardenedAndNormal
deriving DecidableEq, Repr

/-- Mirror of `ExplorationStep` (src/explorer/exploration_path.rs): one level
of a derivation path, an inclusive index range plus a hardness. -/
structure ExplorationStep where
  start_inclusive : Nat
  end_inclusive : Nat
  hardness : ExplorationStepHardness
deriving DecidableEq, Repr

/-- A single BIP32 child number: an index (`< 2^31` whenever it was built by
a successful `ChildNumber::from_*_idx`) together with its hardened flag. -/
structure ChildNumber where
  index : Nat
  hardened : Bool
deriving DecidableEq, Repr

/-- A `bitcoin::bip32::DerivationPath`: the list of child numbers after `m`. -/
abbrev DerivationPath := List ChildNumber

/-- Mirror of `ChildNumber::from_hardened_idx` of the bitcoin crate (as
consumed by the source): succeeds exactly on indices below `2^31`. -/
def from_hardened_idx (n : Nat) : Except RetrieverError ChildNumber :=
  if n < 2 ^ 31 then .ok ⟨n, true⟩ else .error .Bip32Error

/-- Mirror of `ChildNumber::from_normal_idx` of the bitcoin crate: succeeds
exactly on indices below `2^31`. `DerivationPath::from_str "m/N"` /
`"m/N'"` (used for the first step in the source) has the same success
condition and produces the same single child, so the source's first-step
branch is embedded through these two functions as well. -/
def from_normal_idx (n : Nat) : Except RetrieverError ChildNumber :=
  if n < 2 ^ 31 then .ok ⟨n, false⟩ else .error .Bip32Error

/-- The Rust iterator `start_inclusive..end_inclusive + 1` as a list. -/
def range_incl (a b : Nat) : List Nat :=
  List.range' a (b + 1 - a)

/-- Mirror of `ExplorationPath` (src/explorer/exploration_path.rs). -/
structure ExplorationPath where
  path : List ExplorationStep
  depth : Nat
deriving DecidableEq, Repr

/-- Mirror of `ExplorationStep::num_children`, computed in `u32` exactly
as the source does: `end - start + 1` wraps modulo `2^32`, and so does the
doubling for `HardenedAndNormal` (release-mode wrap; a debug build would
panic at the same spots). The `Nat` subtraction coincides with the `u32`
subtraction whenever `start ≤ end`, the well-formedness every claim
assumes. -/
def ExplorationStep.num_children (s : ExplorationStep) : Nat :=
  if s.hardness = ExplorationStepHardness.HardenedAndNormal then
    (2 * ((s.end_inclusive - s.start_inclusive + 1) % 2 ^ 32)) % 2 ^ 32
  else
    (s.end_inclusive - s.start_inclusive + 1) % 2 ^ 32

/-- The exact (unbounded) per-step child count — the value the
specification's formulas denote: `end − start + 1`, doubled for
`HardenedAndNormal`. `num_children` above agrees with it exactly when it
is below `2^32`. -/
def ExplorationStep.exact_children (s : ExplorationStep) : Nat :=
  if s.hardness = ExplorationStepHardness.HardenedAndNormal then
    2 * (s.end_inclusive - s.start_inclusive + 1)
  else
    s.end_inclusive - s.start_inclusive + 1

/-- The first-step branch of
`generate_derivation_paths_for_exploration_path`:
`for child_number in start..end+1 { derivation_paths.push(from_str(...)?) }`. -/
def seed_paths (cs : List Nat) (hardened : Bool) :
    Except RetrieverError (List DerivationPath) :=
  match cs with
  | [] => .ok []
  | c :: rest =>
    match (if hardened then from_hardened_idx c else from_normal_idx c) with
    | .error e => .error e
    | .ok cn =>
      match seed_paths rest hardened with
      | .error e => .error e
      | .ok tail => .ok ([cn] :: tail)

/-- The inner loop of the non-first-step branches:
`for child in derivation_paths.clone() { round_result.push(child.extend(from_idx(c)?)) }`. -/
def extend_one (prev : List DerivationPath) (c : Nat) (hardened : Bool) :
    Except RetrieverError (List DerivationPath) :=
  match prev with
  | [] => .ok []
  | p :: ps =>
    match (if hardened then from_hardened_idx c else from_normal_idx c) with
    | .error e => .error e
    | .ok cn =>
      match extend_one ps c hardened with
      | .error e => .error e
      | .ok tail => .ok ((p ++ [cn]) :: tail)

/-- The non-first-step loop nest:
`for child_number in start..end+1 { for child in derivation_paths.clone() { ... } }`. -/
def extend_round (prev : List DerivationPath) (hardened : Bool) (cs : List Nat) :
    Except RetrieverError (List DerivationPath) :=
  match cs with
  | [] => .ok []
  | c :: rest =>
    match extend_one prev c hardened with
    | .error e => .error e
    | .ok here =>
      match extend_round prev hardened rest with
      | .error e => .error e
      | .ok tail => .ok (here ++ tail)

/-- One iteration of the `for step in self.path` loop of
`generate_derivation_paths_for_exploration_path`, with the `?`-propagation
of earlier errors folded in. -/
def apply_step (eacc : Except RetrieverError (List DerivationPath))
    (step : ExplorationStep) : Except RetrieverError (List DerivationPath) :=
  match eacc with
  | .error e => .error e
  | .ok prev =>
    if prev.isEmpty then
      match step.hardness with
      | .Hardened =>
        seed_paths (range_incl step.start_inclusive step.end_inclusive) true
      | .Normal =>
        seed_paths (range_incl step.start_inclusive step.end_inclusive) false
      | .HardenedAndNormal =>
        match seed_paths (range_incl step.start_inclusive step.end_inclusive) true with
        | .error e => .error e
        | .ok h =>
          match seed_paths (range_incl step.start_inclusive step.end_inclusive) false with
          | .error e => .error e
          | .ok n => .ok (h ++ n)
    else
      match step.hardness with
      | .Hardened =>
        extend_round prev true (range_incl step.start_inclusive step.end_inclusive)
      | .Normal =>
        extend_round prev false (range_incl step.start_inclusive step.end_inclusive)
      | .HardenedAndNormal =>
        match extend_round prev true (range_incl step.start_inclusive step.end_inclusive) with
        | .error e => .error e
        | .ok h =>
          match extend_round prev false (range_incl step.start_inclusive step.end_inclusive) with
          | .error e => .error e
          | .ok n => .ok (h ++ n)

/-- Mirror of `ExplorationPath::generate_derivation_paths_for_exploration_path`. -/
def ExplorationPath.generate_derivation_paths_for_exploration_path
    (p : ExplorationPath) : Except RetrieverError (List DerivationPath) :=
  p.path.foldl apply_step (.ok [])

/-- Well-formedness of a step as stated by the claims: `start ≤ end`. -/
def step_wf (s : ExplorationStep) : Prop :=
  s.start_inclusive ≤ s.end_inclusive

instance (s : ExplorationStep) : Decidable (step_wf s) := by
  unfold step_wf; infer_instance

/-- The list of children of a step in the order the generator emits them:
ascending indices, and for `HardenedAndNormal` the hardened half before the
normal half. -/
def child_list (s : ExplorationStep) : List ChildNumber :=
  match s.hardness with
  | .Hardened =>
    (range_incl s.start_inclusive s.end_inclusive).map (fun c => ⟨c, true⟩)
  | .Normal =>
    (range_incl s.start_inclusive s.end_inclusive).map (fun c => ⟨c, false⟩)
  | .HardenedAndNormal =>
    (range_incl s.start_inclusive s.end_inclusive).map (fun c => ⟨c, true⟩) ++
      (range_incl s.start_inclusive s.end_inclusive).map (fun c => ⟨c, false⟩)

/-- One enumeration round: the children of `s` in emission order, each
extending every previously generated prefix (the new child varies in the
outer position, the prefixes in the inner position). -/
def flat_step (acc : List DerivationPath) (s : ExplorationStep) :
    List DerivationPath :=
  (child_list s).flatMap (fun cn => acc.map (fun p => p ++ [cn]))

/-- The enumeration the generator actually produces on success: each step
appends its children over all previously generated prefixes, the new child
in the outer loop — so the first step varies fastest. -/
def enum_paths (steps : List ExplorationStep) : List DerivationPath :=
  steps.foldl flat_step [[]]

/-- The apostrophe character, one of the hardness suffixes. -/
def apos : Char := Char.ofNat 39

/-- A character of the class `[\d./'ha*]`. -/
def is_admissible_char (c : Char) : Bool :=
  c.isDigit || c = '.' || c = '/' || c = apos || c = 'h' || c = 'a' || c = '*'

/-- Mirror of `check_input_chars`: the regex `^[\d./'ha*]+$`. -/
def check_input_chars (s : List Char) : Bool :=
  !s.isEmpty && s.all is_admissible_char

/-- `str::split('/')`, keeping empty segments (dropped just after, as in
the source's `retain`). -/
def split_on_slash : List Char → List (List Char)
  | [] => [[]]
  | c :: rest =>
    let r := split_on_slash rest
    if c = '/' then [] :: r
    else
      match r with
      | [] => [[c]]
      | seg :: segs => (c :: seg) :: segs

/-- Mirror of `split_path_steps`: split on `/` and retain the non-empty
segments. -/
def split_path_steps (s : List Char) : List (List Char) :=
  (split_on_slash s).filter (fun seg => !seg.isEmpty)

/-- The longest digit run at the head of the string, with the remainder. -/
def leading_digits : List Char → List Char × List Char
  | [] => ([], [])
  | c :: rest =>
    if c.isDigit then
      let dr := leading_digits rest
      (c :: dr.1, dr.2)
    else ([], c :: rest)

/-- Whole-string match of `\d*(\.\.)?\d+` — the body of the range-step
regex once the optional hardness suffix is removed. -/
def digits_body (r : List Char) : Bool :=
  let dr := leading_digits r
  match dr.2 with
  | [] => !dr.1.isEmpty
  | '.' :: '.' :: t => !t.isEmpty && t.all (fun c => c.isDigit)
  | _ => false

/-- The optional `[h'a]` suffix: drop the last character when it is one. -/
def strip_suffix_char (s : List Char) : List Char :=
  match s.getLast? with
  | some c => if c = 'h' || c = apos || c = 'a' then s.dropLast else s
  | none => s

/-- Mirror of `step_is_range`: the regex `^\d*(\.\.)?\d+[h'a]?$`. -/
def step_is_range (s : List Char) : Bool :=
  digits_body (strip_suffix_char s)

/-- Mirror of `step_is_wildcard`: the regex `^\*[h'a]?$`. -/
def step_is_wildcard (s : List Char) : Bool :=
  match s with
  | [c1] => c1 = '*'
  | [c1, c2] => c1 = '*' && (c2 = 'h' || c2 = apos || c2 = 'a')
  | _ => false

/-- Mirror of `check_step_sanity`. -/
def check_step_sanity (st : List Char) : Bool :=
  step_is_wildcard st || step_is_range st

/-- Mirror of `extract_step_hardness`, which reads
`step.chars().last().unwrap()`: `none` models the panic on an empty
string (never reached through `ExplorationPath::new`, which only
translates non-empty sane segments). -/
def extract_step_hardness (s : List Char) : Option ExplorationStepHardness :=
  match s.getLast? with
  | none => none
  | some c =>
    some (if c = 'h' || c = apos then .Hardened
      else if c = 'a' then .HardenedAndNormal
      else .Normal)

/-- Mirror of `translate_wildcard_step_string_to_exploration_step`:
the step `[0, depth]` with the suffix hardness. -/
def translate_wildcard_step_string_to_exploration_step
    (step_string : List Char) (exploration_depth : Nat) :
    Option ExplorationStep :=
  match extract_step_hardness step_string with
  | none => none
  | some h => some ⟨0, exploration_depth, h⟩

/-- `point_regex.find` for `^\d+[h'a]?$`: anchored on both sides, so it
returns the whole string exactly when the string matches. -/
def point_match (s : List Char) : Option (List Char) :=
  let dr := leading_digits s
  if dr.1.isEmpty then none
  else
    match dr.2 with
    | [] => some s
    | [c] => if c = 'h' || c = apos || c = 'a' then some s else none
    | _ => none

/-- `start_regex.find` for `^\d+\.\.`: the leading digit run followed by
`..`, when the string starts that way. -/
def start_match (s : List Char) : Option (List Char) :=
  let dr := leading_digits s
  match dr.2 with
  | '.' :: '.' :: _ => if dr.1.isEmpty then none else some (dr.1 ++ ['.', '.'])
  | _ => none

/-- `end_regex.find` for `\.\.\d+` (unanchored): the leftmost occurrence
of `..` followed by at least one digit, with its maximal digit run. -/
def end_match : List Char → Option (List Char)
  | [] => none
  | c :: rest =>
    if c = '.' then
      match rest with
      | c2 :: rest2 =>
        if c2 = '.' then
          let dr := leading_digits rest2
          if dr.1.isEmpty then end_match rest else some ('.' :: '.' :: dr.1)
        else end_match rest
      | [] => none
    else end_match rest

/-- `str::parse::<u32>` on a filtered digit string followed by `unwrap`:
`none` models the panic, raised when the parse fails — on an empty string
or on a value above `u32::MAX`. -/
def parse_u32 (ds : List Char) : Option Nat :=
  if ds.isEmpty then none
  else
    let v := ds.foldl (fun a c => a * 10 + (c.toNat - 48)) 0
    if v < 2 ^ 32 then some v else none

/-- The `start_inclusive` computation of
`translate_range_step_string_to_exploration_step`: the whole-string point
match, else the digits before `..`, else `0`. -/
def range_start_num (s : List Char) : Option Nat :=
  match point_match s with
  | some m => parse_u32 (m.filter (fun c => c.isDigit))
  | none =>
    match start_match s with
    | some m => parse_u32 (m.filter (fun c => decide (c ≠ '.')))
    | none => some 0

/-- The `end_inclusive` computation: `none` is the parse panic; the
`InvalidStepRange` error is returned when no end bound is found. -/
def range_end_num (s : List Char) : Option (Except RetrieverError Nat) :=
  match point_match s with
  | some m =>
    match parse_u32 (m.filter (fun c => c.isDigit)) with
    | none => none
    | some v => some (.ok v)
  | none =>
    match end_match s with
    | some m =>
      match parse_u32 (m.filter (fun c => decide (c ≠ '.'))) with
      | none => none
      | some v => some (.ok v)
    | none => some (.error .InvalidStepRange)

/-- Mirror of `translate_range_step_string_to_exploration_step`. -/
def translate_range_step_string_to_exploration_step (step_string : List Char) :
    Option (Except RetrieverError ExplorationStep) :=
  match extract_step_hardness step_string with
  | none => none
  | some hardness =>
    match range_start_num step_string with
    | none => none
    | some start_inclusive =>
      match range_end_num step_string with
      | none => none
      | some (.error e) => some (.error e)
      | some (.ok end_inclusive) =>
        if end_inclusive < start_inclusive then some (.error .InvalidStepRange)
        else some (.ok ⟨start_inclusive, end_inclusive, hardness⟩)

/-- Mirror of `translate_step_string_to_exploration_step`. -/
def translate_step_string_to_exploration_step (step_string : List Char)
    (exploration_depth : Nat) : Option (Except RetrieverError ExplorationStep) :=
  if step_is_range step_string then
    translate_range_step_string_to_exploration_step step_string
  else if step_is_wildcard step_string then
    match translate_wildcard_step_string_to_exploration_step step_string
        exploration_depth with
    | none => none
    | some st => some (.ok st)
  else some (.error .InvalidExplorationPath)

/-- The `for step in exploration_path_split { path.push(translate(...)?) }`
loop of `ExplorationPath::new`, short-circuiting on the first error or
panic. -/
def translate_steps (segs : List (List Char)) (d : Nat) :
    Option (Except RetrieverError (List ExplorationStep)) :=
  match segs with
  | [] => some (.ok [])
  | st :: rest =>
    match translate_step_string_to_exploration_step st d with
    | none => none
    | some (.error e) => some (.error e)
    | some (.ok stp) =>
      match translate_steps rest d with
      | none => none
      | some (.error e) => some (.error e)
      | some (.ok stps) => some (.ok (stp :: stps))

/-- Mirror of `ExplorationPath::new`. -/
def ExplorationPath.new (exploration_str : List Char) (exploration_depth : Nat) :
    Option (Except RetrieverError ExplorationPath) :=
  if check_input_chars exploration_str = false then
    some (.error .InvalidExplorationPath)
  else
    let exploration_path_split := split_path_steps exploration_str
    if exploration_path_split.any (fun st => !check_step_sanity st) then
      some (.error .InvalidExplorationPath)
    else
      match translate_steps exploration_path_split exploration_depth with
      | none => none
      | some (.error e) => some (.error e)
      | some (.ok path) => some (.ok ⟨path, exploration_depth⟩)

/-! ### The unspent script-pubkey set (src/uspk_set.rs)

The dump decoding (`txoutset::Dump`) is an external collaborator; the set
is populated from the stream of `(script_pubkey, amount, height)` records
it yields, of which only the script-pubkey bytes are used. A miniscript
`Descriptor` is likewise external and enters the embedded code only
through its `script_pubkey()` bytes, so it is carried as those bytes. -/

/-- One record of the UTXO dump stream: script-pubkey bytes, amount and
height (the latter two are discarded by the source). -/
structure DumpRecord where
  script_pubkey : List Nat
  amount : Nat
  height : Nat
deriving DecidableEq, Repr

/-- A miniscript descriptor, carried as its script-pubkey bytes
(`descriptor.script_pubkey().to_bytes()` is the only way the embedded
code consumes it). -/
structure Descriptor where
  script_pubkey : List Nat
deriving DecidableEq, Repr

/-- Mirror of `PathDescriptorPair` (src/path_pairs.rs). -/
structure PathDescriptorPair where
  path : DerivationPath
  descriptor : Descriptor
deriving DecidableEq, Repr

/-- `hashbrown::HashSet::insert` on a set represented as its list of
(pairwise distinct) elements: a duplicate leaves the set unchanged. -/
def hs_insert (set : List (List Nat)) (x : List Nat) : List (List Nat) :=
  if x ∈ set then set else set ++ [x]

/-- Mirror of `UnspentScriptPupKeysSet` (src/uspk_set.rs — sic). -/
structure UnspentScriptPupKeysSet where
  set : List (List Nat)
deriving DecidableEq, Repr

/-- Mirror of `UnspentScriptPupKeysSet::from_dump_file`: the
`while let Some(txout) = dump.next() { set.insert(txout.script_pubkey...) }`
loop over the record stream of the external dump decoder (progress-bar
bookkeeping has no effect on the set and is omitted). -/
def UnspentScriptPupKeysSet.from_dump_file (records : List DumpRecord) :
    UnspentScriptPupKeysSet :=
  ⟨records.foldl (fun s r => hs_insert s r.script_pubkey) []⟩

/-- `HashSet::contains` on the embedded set. -/
def UnspentScriptPupKeysSet.contains (u : UnspentScriptPupKeysSet)
    (x : List Nat) : Bool :=
  decide (x ∈ u.set)

/-- Mirror of
`UnspentScriptPupKeysSet::search_for_path_descriptor_pairs_and_return_those_present`:
the `for path_descriptor_pair in vec.iter() { if set.contains(...) { finds.push } }`
loop (again minus the progress bar). -/
def UnspentScriptPupKeysSet.search_for_path_descriptor_pairs_and_return_those_present
    (u : UnspentScriptPupKeysSet) :
    List PathDescriptorPair → List PathDescriptorPair
  | [] => []
  | pr :: rest =>
    if u.contains pr.descriptor.script_pubkey then
      pr :: u.search_for_path_descriptor_pairs_and_return_those_present rest
    else
      u.search_for_path_descriptor_pairs_and_return_those_present rest

/-! ### The retriever (src/retriever.rs) -/

/-- The `scantxoutset` result for one descriptor, carried as its total
amount (the structure is produced by the external RPC client). -/
structure ScanResult where
  total_amount : Nat
deriving DecidableEq, Repr

/-- Mirror of `PathScanResultDescriptorTrio` (src/path_pairs.rs). -/
structure PathScanResultDescriptorTrio where
  path : DerivationPath
  result : ScanResult
  descriptor : Descriptor
deriving DecidableEq, Repr

/-- The fields of `Retriever` the finds workflow reads and writes:
the `finds` list filled by the search phase and the `detailed_finds`
option, `None` until `get_details_of_finds_from_bitcoincore` stores scan
results (it is initialised to `None` in `Retriever::new`). -/
structure Retriever where
  finds : List PathDescriptorPair
  detailed_finds : Option (List PathScanResultDescriptorTrio)
deriving DecidableEq, Repr

/-- Mirror of `Retriever::get_details_of_finds_from_bitcoincore`.
`scan_utxo_set` abstracts `self.client.scan_utxo_set` (the external RPC
call on the scan requests built from `finds`); the empty-finds branch
prints a notice and returns `Ok(())` without touching `detailed_finds`
and without building any scan request — which the theorem expresses by
holding for every `scan_utxo_set` whatsoever. -/
def Retriever.get_details_of_finds_from_bitcoincore (r : Retriever)
    (scan_utxo_set :
      List PathDescriptorPair → Except RetrieverError (List PathScanResultDescriptorTrio)) :
    Except RetrieverError Retriever :=
  if r.finds.isEmpty then .ok r
  else
    match scan_utxo_set r.finds with
    | .error e => .error e
    | .ok details => .ok { r with detailed_finds := some details }

/-- Mirror of `Retriever::get_detailed_finds`. -/
def Retriever.get_detailed_finds (r : Retriever) :
    Except RetrieverError (List PathScanResultDescriptorTrio) :=
  match r.detailed_finds with
  | none => .error .DetailsHaveNotBeenFetched
  | some l => .ok l

/-- The emission order of `Retriever::create_derivation_path_stream`
(src/retriever.rs lines 130–150): the outer loop walks the Cartesian
product of the steps, the inner loop walks the base paths and sends
`base.extend(explore_path)`. -/
def create_derivation_path_stream_order
    (explore_paths bases : List DerivationPath) : List DerivationPath :=
  explore_paths.flatMap (fun e => bases.map (fun b => b ++ e))

/-- The combination loop of `Explorer::new` (src/explorer/mod.rs lines
82–86): `for base_path in base_derivation_paths { for path in
&exploration_paths { complete_paths.push(base_path.extend(path)) } }`. -/
def explorer_complete_paths
    (bases exploration : List DerivationPath) : List DerivationPath :=
  bases.flatMap (fun b => exploration.map (fun q => b ++ q))

/-! ### Definitions taken from the specification's wording (for the
refinement claims C2 and C3), to be compared with the source-derived
definitions above. -/

/-- Modelled from the spec: "the inner loop is the Cartesian product of
`steps[]`, where each step iterates children in ascending index; for
`HardenedAndNormal`, the hardened half comes before the normal half" —
read as the usual nested-loop product in step order, the first step
outermost (so the last step varies fastest). -/
def spec_step_product : List ExplorationStep → List DerivationPath
  | [] => [[]]
  | s :: rest =>
    (child_list s).flatMap (fun cn => (spec_step_product rest).map (fun p => cn :: p))

/-- Modelled from the spec: "outer loop over `base_paths[]` in input
order", inner loop over the step product. -/
def spec_stream_order (explore_paths bases : List DerivationPath) :
    List DerivationPath :=
  bases.flatMap (fun b => explore_paths.map (fun e => b ++ e))


def c3_path : ExplorationPath := ⟨[⟨0, 1, .Normal⟩, ⟨0, 1, .Normal⟩], 5⟩

theorem map_const_sum {α : Type} (l : List α) (k : Nat) :
    (l.map (fun _ => k)).sum = l.length * k := by
  induction l with
  | nil => simp
  | cons a t ih => simp [ih, Nat.succ_mul, Nat.add_comm]

theorem flatMap_singleton_map {α β : Type} (l : List α) (f : α → β) :
    (l.flatMap fun x => [f x]) = l.map f := by
  induction l <;> simp_all

theorem mk_child_ok {c : Nat} {hardened : Bool} {cn : ChildNumber}
    (h : (if hardened then from_hardened_idx c else from_normal_idx c) = .ok cn) :
    cn = ⟨c, hardened⟩ := by
  cases hardened <;>
    simp only [from_hardened_idx, from_normal_idx, if_true, if_false, Bool.false_eq_true] at h <;>
    split at h <;> simp_all

theorem seed_paths_ok {hardened : Bool} {cs : List Nat} {l : List DerivationPath}
    (h : seed_paths cs hardened = .ok l) :
    l = cs.map (fun c => [(⟨c, hardened⟩ : ChildNumber)]) := by
  induction cs generalizing l with
  | nil =>
    simp only [seed_paths, Except.ok.injEq] at h
    simp [← h]
  | cons c rest ih =>
    rw [seed_paths] at h
    split at h
    · exact absurd h (by simp)
    · next cn hcn =>
      split at h
      · exact absurd h (by simp)
      · next tail htail =>
        cases h
        simp [mk_child_ok hcn, ih htail]

theorem extend_one_ok {prev : List DerivationPath} {c : Nat} {hardened : Bool}
    {l : List DerivationPath} (h : extend_one prev c hardened = .ok l) :
    l = prev.map (fun p => p ++ [(⟨c, hardened⟩ : ChildNumber)]) := by
  induction prev generalizing l with
  | nil =>
    simp only [extend_one, Except.ok.injEq] at h
    simp [← h]
  | cons p ps ih =>
    rw [extend_one] at h
    split at h
    · exact absurd h (by simp)
    · next cn hcn =>
      split at h
      · exact absurd h (by simp)
      · next tail htail =>
        cases h
        simp [mk_child_ok hcn, ih htail]

theorem extend_round_ok {prev : List DerivationPath} {hardened : Bool}
    {cs : List Nat} {l : List DerivationPath}
    (h : extend_round prev hardened cs = .ok l) :
    l = cs.flatMap
      (fun c => prev.map (fun p => p ++ [(⟨c, hardened⟩ : ChildNumber)])) := by
  induction cs generalizing l with
  | nil =>
    simp only [extend_round, Except.ok.injEq] at h
    simp [← h]
  | cons c rest ih =>
    rw [extend_round] at h
    split at h
    · exact absurd h (by simp)
    · next here hhere =>
      split at h
      · exact absurd h (by simp)
      · next tail htail =>
        cases h
        simp [extend_one_ok hhere, ih htail]

theorem apply_step_ok {prev l : List DerivationPath} {s : ExplorationStep}
    (h : apply_step (.ok prev) s = .ok l) :
    l = flat_step (if prev.isEmpty then [[]] else prev) s := by
  rw [apply_step] at h
  by_cases hprev : prev.isEmpty
  · rw [if_pos hprev] at h
    rw [if_pos hprev]
    split at h
    · next hh =>
      simp [flat_step, child_list, hh, List.flatMap_map, flatMap_singleton_map,
        seed_paths_ok h]
    · next hh =>
      simp [flat_step, child_list, hh, List.flatMap_map, flatMap_singleton_map,
        seed_paths_ok h]
    · next hh =>
      split at h
      · exact absurd h (by simp)
      · next hv hseed1 =>
        split at h
        · exact absurd h (by simp)
        · next n hseed2 =>
          cases h
          simp [flat_step, child_list, hh, List.flatMap_append, List.flatMap_map,
            flatMap_singleton_map, seed_paths_ok hseed1, seed_paths_ok hseed2,
            Function.comp_def]
  · rw [if_neg hprev] at h
    rw [if_neg hprev]
    split at h
    · next hh =>
      simp [flat_step, child_list, hh, List.flatMap_map, extend_round_ok h]
    · next hh =>
      simp [flat_step, child_list, hh, List.flatMap_map, extend_round_ok h]
    · next hh =>
      split at h
      · exact absurd h (by simp)
      · next hv hr1 =>
        split at h
        · exact absurd h (by simp)
        · next n hr2 =>
          cases h
          simp [flat_step, child_list, hh, List.flatMap_append, List.flatMap_map,
            extend_round_ok hr1, extend_round_ok hr2]

theorem foldl_apply_step_error (steps : List ExplorationStep) (e : RetrieverError) :
    steps.foldl apply_step (.error e) = .error e := by
  induction steps with
  | nil => rfl
  | cons s rest ih => simpa [apply_step] using ih

theorem child_list_length {s : ExplorationStep} (hwf : step_wf s) :
    (child_list s).length = s.exact_children := by
  rcases s with ⟨a, b, hard⟩
  cases hard <;>
    simp_all [child_list, ExplorationStep.exact_children, range_incl, step_wf] <;>
    omega

theorem child_list_ne_nil {s : ExplorationStep} (hwf : step_wf s) :
    child_list s ≠ [] := by
  intro hc
  have h := child_list_length hwf
  rw [hc] at h
  rcases s with ⟨a, b, hard⟩
  cases hard <;> simp_all [ExplorationStep.exact_children]

theorem flat_step_length (acc : List DerivationPath) (s : ExplorationStep) :
    (flat_step acc s).length = (child_list s).length * acc.length := by
  simp [flat_step, List.length_flatMap, Function.comp_def, map_const_sum]

theorem flat_step_ne_nil {acc : List DerivationPath} {s : ExplorationStep}
    (hwf : step_wf s) (hacc : acc ≠ []) : flat_step acc s ≠ [] := by
  intro hc
  have h1 : 0 < (child_list s).length := List.length_pos.mpr (child_list_ne_nil hwf)
  have h2 : 0 < acc.length := List.length_pos.mpr hacc
  have h3 := flat_step_length acc s
  rw [hc] at h3
  simp only [List.length_nil] at h3
  have h4 := Nat.mul_pos h1 h2
  omega

theorem fold_apply_step_ok {steps : List ExplorationStep} {prev l : List DerivationPath}
    (hwf : ∀ s ∈ steps, step_wf s) (hne : prev ≠ [])
    (h : steps.foldl apply_step (.ok prev) = .ok l) :
    l = steps.foldl flat_step prev := by
  induction steps generalizing prev with
  | nil =>
    simp only [List.foldl_nil, Except.ok.injEq] at h
    simp [← h]
  | cons s rest ih =>
    rw [List.foldl_cons] at h
    cases hstep : apply_step (.ok prev) s with
    | error e =>
      rw [hstep, foldl_apply_step_error] at h
      exact absurd h (by simp)
    | ok r =>
      rw [hstep] at h
      have hprevE : prev.isEmpty = false := by
        simpa [List.isEmpty_iff] using hne
      have hr : r = flat_step prev s := by
        simpa [hprevE] using apply_step_ok hstep
      have hrne : r ≠ [] := by
        rw [hr]
        exact flat_step_ne_nil (hwf s (by simp)) hne
      have hrec := ih (fun t ht => hwf t (by simp [ht])) hrne h
      rw [List.foldl_cons, ← hr]
      exact hrec

theorem generate_ok_char {p : ExplorationPath} {l : List DerivationPath}
    (hwf : ∀ s ∈ p.path, step_wf s)
    (h : p.generate_derivation_paths_for_exploration_path = .ok l) :
    l = if p.path.isEmpty then [] else enum_paths p.path := by
  rcases p with ⟨steps, d⟩
  cases steps with
  | nil =>
    simp only [ExplorationPath.generate_derivation_paths_for_exploration_path,
      List.foldl_nil, Except.ok.injEq] at h
    simp [← h]
  | cons s rest =>
    rw [ExplorationPath.generate_derivation_paths_for_exploration_path] at h
    simp only [List.foldl_cons] at h
    cases hstep : apply_step (.ok []) s with
    | error e =>
      rw [hstep, foldl_apply_step_error] at h
      exact absurd h (by simp)
    | ok r =>
      rw [hstep] at h
      have hr : r = flat_step [[]] s := by
        simpa using apply_step_ok hstep
      have hrne : r ≠ [] := by
        rw [hr]
        exact flat_step_ne_nil (hwf s (by simp)) (by simp)
      have hrec := fold_apply_step_ok (fun t ht => hwf t (by simp [ht])) hrne h
      simp only [List.isEmpty_cons, if_neg]
      rw [enum_paths, List.foldl_cons, ← hr]
      simpa using hrec

theorem num_children_eq_exact {s : ExplorationStep}
    (h : s.exact_children < 2 ^ 32) : s.num_children = s.exact_children := by
  rw [ExplorationStep.num_children, ExplorationStep.exact_children] at *
  by_cases hh : s.hardness = ExplorationStepHardness.HardenedAndNormal
  · simp only [if_pos hh] at h ⊢
    have hx : s.end_inclusive - s.start_inclusive + 1 < 2 ^ 32 := by omega
    rw [Nat.mod_eq_of_lt hx, Nat.mod_eq_of_lt h]
  · simp only [if_neg hh] at h ⊢
    exact Nat.mod_eq_of_lt h

theorem flatMap_map_get {α β γ : Type} (f : α → β → γ) (xs : List α) (ys : List β)
    (i j : Nat) (hi : i < xs.length) (hj : j < ys.length)
    (h : i * ys.length + j < (xs.flatMap (fun x => ys.map (f x))).length) :
    (xs.flatMap (fun x => ys.map (f x))).get ⟨i * ys.length + j, h⟩ =
      f (xs.get ⟨i, hi⟩) (ys.get ⟨j, hj⟩) := by
  induction xs generalizing i with
  | nil => exact absurd hi (by simp)
  | cons x rest ih =>
    have hsplit : (x :: rest).flatMap (fun x => ys.map (f x)) =
        ys.map (f x) ++ rest.flatMap (fun x => ys.map (f x)) :=
      List.flatMap_cons _ _ _
    simp only [List.get_eq_getElem]
    rw [List.getElem_of_eq hsplit]
    cases i with
    | zero =>
      rw [List.getElem_append_left (by simpa using hj)]
      simp
    | succ i2 =>
      have hlen : (ys.map (f x)).length = ys.length := by simp
      have hge : (ys.map (f x)).length ≤ (i2 + 1) * ys.length + j := by
        rw [hlen, Nat.succ_mul]
        omega
      rw [List.getElem_append_right hge]
      have hi2 : i2 < rest.length := by simpa using hi
      have hb : i2 * ys.length + j <
          (rest.flatMap (fun x => ys.map (f x))).length := by
        have hcopy := h
        rw [hsplit, List.length_append, hlen, Nat.succ_mul] at hcopy
        omega
      have hidx : (i2 + 1) * ys.length + j - (ys.map (f x)).length =
          i2 * ys.length + j := by
        rw [hlen, Nat.succ_mul]
        omega
      have hrec := ih i2 hi2 hb
      simp only [List.get_eq_getElem] at hrec
      simp only [hidx]
      rw [hrec]
      simp

/-- C3 counterexample: for the two-step path `0..1/0..1` the generator
emits `m/0/0, m/1/0, m/0/1, m/1/1` — the FIRST step varies fastest — not
the nested-loop Cartesian product in step order the claim describes; and
`create_derivation_path_stream_order` (base paths in the INNER loop) does
not equal the claimed bases-outer enumeration on two bases and two
exploration paths. -/
theorem claim_C3_counterexample :
    c3_path.generate_derivation_paths_for_exploration_path =
      .ok [[⟨0, false⟩, ⟨0, false⟩], [⟨1, false⟩, ⟨0, false⟩],
        [⟨0, false⟩, ⟨1, false⟩], [⟨1, false⟩, ⟨1, false⟩]] ∧
    c3_path.generate_derivation_paths_for_exploration_path ≠
      .ok (spec_step_product c3_path.path) ∧
    create_derivation_path_stream_order [[⟨0, false⟩], [⟨1, false⟩]]
        [[], [⟨9, false⟩]] ≠
      spec_stream_order [[⟨0, false⟩], [⟨1, false⟩]] [[], [⟨9, false⟩]] :=
  ⟨by decide, by decide, by decide⟩

/-- C3 amended: the generator enumerates the Cartesian product with the
FIRST step varying fastest: every successful generation equals
`enum_paths`, which extends all previously generated prefixes by each
child of the next step in ascending order — for `HardenedAndNormal` the
entire hardened half before the normal half (`child_list`). In
`create_derivation_path_stream_order` the base paths form the INNER loop
(entry `i·|bases|+j` is `bases[j] ++ explore[i]`), in input order; the
`Explorer::new` combination loop does put base paths in the outer loop
(entry `i·|exploration|+j` is `bases[i] ++ exploration[j]`). -/
theorem claim_C3_enumeration_order :
    (∀ (p : ExplorationPath) (l : List DerivationPath),
      (∀ s ∈ p.path, step_wf s) →
      p.generate_derivation_paths_for_exploration_path = .ok l →
      l = (if p.path.isEmpty then [] else enum_paths p.path)) ∧
    (∀ (ep bases : List DerivationPath) (i j : Nat)
      (hi : i < ep.length) (hj : j < bases.length)
      (h : i * bases.length + j <
        (create_derivation_path_stream_order ep bases).length),
      (create_derivation_path_stream_order ep bases).get
          ⟨i * bases.length + j, h⟩ =
        bases.get ⟨j, hj⟩ ++ ep.get ⟨i, hi⟩) ∧
    (∀ (bases xp : List DerivationPath) (i j : Nat)
      (hi : i < bases.length) (hj : j < xp.length)
      (h : i * xp.length + j < (explorer_complete_paths bases xp).length),
      (explorer_complete_paths bases xp).get ⟨i * xp.length + j, h⟩ =
        bases.get ⟨i, hi⟩ ++ xp.get ⟨j, hj⟩) := by
  refine ⟨fun p l hwf h => generate_ok_char hwf h, ?_, ?_⟩
  · intro ep bases i j hi hj h
    exact flatMap_map_get (fun e b => b ++ e) ep bases i j hi hj h
  · intro bases xp i j hi hj h
    exact flatMap_map_get (fun b q => b ++ q) bases xp i j hi hj h

/-- Witness for C3 (amended) at concrete inputs: the generator output for
`0..1/0..1` and the stream entry at position `1·2+0`. -/
theorem claim_C3_witness :
    ([[⟨0, false⟩, ⟨0, false⟩], [⟨1, false⟩, ⟨0, false⟩],
        [⟨0, false⟩, ⟨1, false⟩], [⟨1, false⟩, ⟨1, false⟩]] :
        List DerivationPath) =
      (if c3_path.path.isEmpty then [] else enum_paths c3_path.path) ∧
    (create_derivation_path_stream_order [[⟨0, false⟩], [⟨1, false⟩]]
        [[], [⟨9, false⟩]]).get ⟨1 * 2 + 0, by decide⟩ =
      [] ++ [⟨1, false⟩] :=
  ⟨claim_C3_enumeration_order.1 c3_path _ (by decide) (by decide),
   claim_C3_enumeration_order.2.1 [[⟨0, false⟩], [⟨1, false⟩]]
     [[], [⟨9, false⟩]] 1 0 (by decide) (by decide) (by decide)⟩

/-- C4 counterexample: the input `/` contains no valid step (its only
slash-separated segments are empty and are discarded), yet
`ExplorationPath::new` succeeds with an empty step list instead of
returning `InvalidExplorationPath`. -/
theorem claim_C4_counterexample :
    ExplorationPath.new ("/".toList) 5 = some (.ok ⟨[], 5⟩) ∧
    ExplorationPath.new ("/".toList) 5 ≠ some (.error .InvalidExplorationPath) :=
  ⟨by decide, by decide⟩

/-- C4 amended: for every input with no valid step, `new` returns
`InvalidExplorationPath` — unless the input passes the admissible-character
check and its slash-split segment list is empty (strings made of slashes
only), in which case `new` succeeds with an empty step list. In particular
the empty string is rejected (it fails the character check). -/
theorem claim_C4_no_valid_step (s : List Char) (d : Nat)
    (hnone : ∀ st ∈ split_path_steps s, check_step_sanity st = false) :
    if check_input_chars s = true ∧ split_path_steps s = [] then
      ExplorationPath.new s d = some (.ok ⟨[], d⟩)
    else
      ExplorationPath.new s d = some (.error .InvalidExplorationPath) := by
  by_cases hc : check_input_chars s = true
  · by_cases hsplit : split_path_steps s = []
    · rw [if_pos ⟨hc, hsplit⟩]
      rw [ExplorationPath.new, if_neg (by simp [hc])]
      simp [hsplit, translate_steps]
    · rw [if_neg (by tauto)]
      rw [ExplorationPath.new, if_neg (by simp [hc])]
      have hany : (split_path_steps s).any (fun st => !check_step_sanity st) = true := by
        cases hsp : split_path_steps s with
        | nil => exact absurd hsp hsplit
        | cons a t =>
          have ha := hnone a (by rw [hsp]; simp)
          simp [List.any_cons, ha]
      simp only [hany, if_pos]
  · rw [if_neg (by tauto)]
    rw [ExplorationPath.new, if_pos (by simpa using hc)]

/-- Witness for C4 (amended) at the empty input string. -/
theorem claim_C4_witness :
    (∀ st ∈ split_path_steps ("".toList), check_step_sanity st = false) ∧
    (if check_input_chars ("".toList) = true ∧ split_path_steps ("".toList) = [] then
      ExplorationPath.new ("".toList) 5 = some (.ok ⟨[], 5⟩)
    else
      ExplorationPath.new ("".toList) 5 = some (.error .InvalidExplorationPath)) :=
  ⟨by decide, claim_C4_no_valid_step ("".toList) 5 (by decide)⟩

theorem hs_insert_mem (s : List (List Nat)) (y x : List Nat) :
    x ∈ hs_insert s y ↔ x ∈ s ∨ x = y := by
  rw [hs_insert]
  split
  · next hmem =>
    constructor
    · exact fun hx => Or.inl hx
    · rintro (hx | rfl)
      · exact hx
      · exact hmem
  · simp

theorem hs_insert_nodup {s : List (List Nat)} (h : s.Nodup) (y : List Nat) :
    (hs_insert s y).Nodup := by
  rw [hs_insert]
  split
  · exact h
  · next hmem =>
    rw [List.nodup_append]
    exact ⟨h, List.nodup_singleton y, by
      intro a ha hay
      simp only [List.mem_singleton] at hay
      exact hmem (hay ▸ ha)⟩

theorem from_dump_fold_mem (records : List DumpRecord)
    (init : List (List Nat)) (x : List Nat) :
    x ∈ records.foldl (fun s r => hs_insert s r.script_pubkey) init ↔
      x ∈ init ∨ ∃ r ∈ records, r.script_pubkey = x := by
  induction records generalizing init with
  | nil => simp
  | cons r rest ih =>
    rw [List.foldl_cons, ih, hs_insert_mem]
    constructor
    · rintro ((hx | rfl) | ⟨r2, hr2, hx⟩)
      · exact Or.inl hx
      · exact Or.inr ⟨r, by simp⟩
      · exact Or.inr ⟨r2, by simp [hr2], hx⟩
    · rintro (hx | ⟨r2, hr2, hx⟩)
      · exact Or.inl (Or.inl hx)
      · rcases List.mem_cons.mp hr2 with rfl | hr2
        · exact Or.inl (Or.inr hx.symm)
        · exact Or.inr ⟨r2, hr2, hx⟩

theorem from_dump_fold_nodup (records : List DumpRecord)
    {init : List (List Nat)} (h : init.Nodup) :
    (records.foldl (fun s r => hs_insert s r.script_pubkey) init).Nodup := by
  induction records generalizing init with
  | nil => exact h
  | cons r rest ih => exact ih (hs_insert_nodup h r.script_pubkey)

/-- C5: after populating the set from a stream of
`(spk_bytes, amount, height)` records, `contains x` holds iff some
ingested record had script-pubkey bytes `x` (duplicates collapse: the
backing list stays duplicate-free), and the search operation returns
exactly those input pairs whose descriptor script-pubkey bytes are in the
set, in input order (it is the order-preserving filter). -/
theorem claim_C5_set_semantics :
    (∀ (records : List DumpRecord) (x : List Nat),
      (UnspentScriptPupKeysSet.from_dump_file records).contains x = true ↔
        ∃ r ∈ records, r.script_pubkey = x) ∧
    (∀ records : List DumpRecord,
      (UnspentScriptPupKeysSet.from_dump_file records).set.Nodup) ∧
    (∀ (records : List DumpRecord) (pairs : List PathDescriptorPair),
      (UnspentScriptPupKeysSet.from_dump_file
          records).search_for_path_descriptor_pairs_and_return_those_present
          pairs =
        pairs.filter
          (fun pr => (UnspentScriptPupKeysSet.from_dump_file records).contains
            pr.descriptor.script_pubkey)) := by
  refine ⟨?_, ?_, ?_⟩
  · intro records x
    rw [UnspentScriptPupKeysSet.contains, decide_eq_true_iff,
      UnspentScriptPupKeysSet.from_dump_file, from_dump_fold_mem]
    simp
  · intro records
    rw [UnspentScriptPupKeysSet.from_dump_file]
    exact from_dump_fold_nodup records List.nodup_nil
  · intro records pairs
    induction pairs with
    | nil => rfl
    | cons pr rest ih =>
      rw [UnspentScriptPupKeysSet.search_for_path_descriptor_pairs_and_return_those_present,
        List.filter_cons]
      by_cases hc : (UnspentScriptPupKeysSet.from_dump_file records).contains
          pr.descriptor.script_pubkey = true
      · rw [if_pos hc, if_pos hc, ih]
      · rw [if_neg hc, if_neg hc, ih]

theorem num_children_zero_d {d : Nat} {h : ExplorationStepHardness} :
    (ExplorationStep.mk 0 d h).exact_children =
      (if h = ExplorationStepHardness.HardenedAndNormal then 2 * (d + 1)
        else d + 1) := by
  rw [ExplorationStep.exact_children]
  simp

/-- C6 counterexample: at the representable depth `2^31 − 1` the wildcard
`*a` still parses to the step `[0, 2^31 − 1]` with both hardnesses, but
the source's `u32` doubling wraps: `num_children` is `0`, not
`2·(depth + 1) = 2^32`. -/
theorem claim_C6_counterexample :
    translate_wildcard_step_string_to_exploration_step ("*a".toList)
        2147483647 =
      some ⟨0, 2147483647, .HardenedAndNormal⟩ ∧
    ExplorationStep.num_children ⟨0, 2147483647, .HardenedAndNormal⟩ = 0 ∧
    ExplorationStep.num_children ⟨0, 2147483647, .HardenedAndNormal⟩ ≠
      2 * (2147483647 + 1) :=
  ⟨by decide, by decide, by decide⟩

/-- C6 (amended): for every depth `d`, parsing a wildcard step `*` (with
optional hardness suffix) yields the step `[0, d]` with the suffix's
hardness, and — whenever the exact count fits in `u32` — the step has
`d + 1` children per hardness (`2·(d+1)` in total for the double hardness
`a`); in particular with depth 0 the wildcard `*` parses to the
single-child step `[0,0]` and emits exactly the child `0`. -/
theorem claim_C6_wildcard :
    (∀ (d : Nat) (s : List Char), step_is_wildcard s = true →
      ∃ h, extract_step_hardness s = some h ∧
        translate_wildcard_step_string_to_exploration_step s d =
          some ⟨0, d, h⟩ ∧
        ((if h = ExplorationStepHardness.HardenedAndNormal then 2 * (d + 1)
            else d + 1) < 2 ^ 32 →
          ExplorationStep.num_children ⟨0, d, h⟩ =
            (if h = ExplorationStepHardness.HardenedAndNormal then 2 * (d + 1)
              else d + 1))) ∧
    (ExplorationPath.new ("*".toList) 0 = some (.ok ⟨[⟨0, 0, .Normal⟩], 0⟩) ∧
      (ExplorationPath.mk [⟨0, 0, .Normal⟩]
          0).generate_derivation_paths_for_exploration_path =
        .ok [[⟨0, false⟩]]) := by
  refine ⟨?_, by decide, by decide⟩
  intro d s hw
  have hnum : ∀ h : ExplorationStepHardness,
      (if h = ExplorationStepHardness.HardenedAndNormal then 2 * (d + 1)
        else d + 1) < 2 ^ 32 →
      ExplorationStep.num_children ⟨0, d, h⟩ =
        (if h = ExplorationStepHardness.HardenedAndNormal then 2 * (d + 1)
          else d + 1) := by
    intro h hb
    rw [num_children_eq_exact (by rw [num_children_zero_d]; exact hb),
      num_children_zero_d]
  cases s with
  | nil => simp [step_is_wildcard] at hw
  | cons c1 rest =>
    cases rest with
    | nil =>
      simp only [step_is_wildcard, decide_eq_true_eq] at hw
      subst hw
      exact ⟨.Normal, rfl, rfl, hnum .Normal⟩
    | cons c2 rest2 =>
      cases rest2 with
      | nil =>
        simp only [step_is_wildcard, Bool.and_eq_true, Bool.or_eq_true,
          decide_eq_true_eq] at hw
        obtain ⟨h1, h2⟩ := hw
        subst h1
        rcases h2 with (h2 | h2) | h2 <;> subst h2
        · exact ⟨.Hardened, rfl, rfl, hnum .Hardened⟩
        · exact ⟨.Hardened, rfl, rfl, hnum .Hardened⟩
        · exact ⟨.HardenedAndNormal, rfl, rfl, hnum .HardenedAndNormal⟩
      | cons _ _ => simp [step_is_wildcard] at hw

/-- Witness for C6 at `*a` with depth 5. -/
theorem claim_C6_witness :
    step_is_wildcard ("*a".toList) = true ∧
      ∃ h, extract_step_hardness ("*a".toList) = some h ∧
        translate_wildcard_step_string_to_exploration_step ("*a".toList) 5 =
          some ⟨0, 5, h⟩ ∧
        ((if h = ExplorationStepHardness.HardenedAndNormal then 2 * (5 + 1)
            else 5 + 1) < 2 ^ 32 →
          ExplorationStep.num_children ⟨0, 5, h⟩ =
            (if h = ExplorationStepHardness.HardenedAndNormal then 2 * (5 + 1)
              else 5 + 1)) :=
  ⟨by decide, claim_C6_wildcard.1 5 ("*a".toList) (by decide)⟩

theorem leading_digits_spec (r : List Char) :
    (leading_digits r).1 ++ (leading_digits r).2 = r ∧
      ∀ c ∈ (leading_digits r).1, c.isDigit = true := by
  induction r with
  | nil => simp [leading_digits]
  | cons c rest ih =>
    rw [leading_digits]
    by_cases hc : c.isDigit
    · simp only [if_pos hc]
      refine ⟨by simp [ih.1], ?_⟩
      intro x hx
      rcases List.mem_cons.mp hx with rfl | hx
      · exact hc
      · exact ih.2 x hx
    · simp [if_neg hc]

theorem digits_body_chars {r : List Char} (h : digits_body r = true) :
    ∀ c ∈ r, c.isDigit = true ∨ c = '.' := by
  intro c hc
  have hspan := leading_digits_spec r
  rw [← hspan.1] at hc
  rcases List.mem_append.mp hc with hc1 | hc2
  · exact Or.inl (hspan.2 c hc1)
  · simp only [digits_body] at h
    split at h
    · next hnil => rw [hnil] at hc2; simp at hc2
    · next t hdots =>
      rw [hdots] at hc2
      simp only [Bool.and_eq_true, List.all_eq_true] at h
      rcases List.mem_cons.mp hc2 with rfl | hc3
      · exact Or.inr rfl
      · rcases List.mem_cons.mp hc3 with rfl | hc4
        · exact Or.inr rfl
        · exact Or.inl (h.2 c hc4)
    · exact absurd h (by simp)

theorem mem_strip_or_suffix {s : List Char} {c : Char} (hc : c ∈ s) :
    c ∈ strip_suffix_char s ∨ c = 'h' ∨ c = apos ∨ c = 'a' := by
  rw [strip_suffix_char]
  split
  · next cl hg =>
    split
    · next hsfx =>
      have hne : s ≠ [] := by
        intro h0
        rw [h0] at hg
        simp at hg
      have hcl : cl = s.getLast hne := by
        have := List.getLast?_eq_getLast s hne
        rw [hg] at this
        exact (Option.some.injEq _ _ ▸ this).symm ▸ rfl
      have hsplit := List.dropLast_append_getLast hne
      rw [← hsplit] at hc
      rcases List.mem_append.mp hc with hc1 | hc2
      · exact Or.inl hc1
      · simp only [List.mem_singleton] at hc2
        simp only [Bool.or_eq_true, decide_eq_true_eq] at hsfx
        rcases hsfx with (h1 | h1) | h1 <;>
          rw [hc2, ← hcl, h1] <;> simp
    · next => exact Or.inl hc
  · next => exact Or.inl hc

theorem step_is_range_ne_nil {s : List Char} (h : step_is_range s = true) :
    s ≠ [] := by
  intro h0
  rw [h0] at h
  exact absurd h (by decide)

theorem step_is_range_chars {s : List Char} (h : step_is_range s = true) :
    ∀ c ∈ s, is_admissible_char c = true ∧ c ≠ '/' := by
  intro c hc
  rcases mem_strip_or_suffix hc with hm | hsfx
  · rw [step_is_range] at h
    rcases digits_body_chars h c hm with hd | hd
    · refine ⟨by simp [is_admissible_char, hd], ?_⟩
      intro h0
      rw [h0] at hd
      exact absurd hd (by decide)
    · subst hd
      exact ⟨by decide, by decide⟩
  · rcases hsfx with rfl | rfl | rfl <;> exact ⟨by decide, by decide⟩

theorem split_on_slash_no_slash :
    ∀ s : List Char, s ≠ [] → (∀ c ∈ s, c ≠ '/') → split_on_slash s = [s] := by
  intro s
  induction s with
  | nil => intro h _; exact absurd rfl h
  | cons c rest ih =>
    intro _ hns
    rw [split_on_slash]
    rw [if_neg (hns c (by simp))]
    cases hrest : rest with
    | nil => simp [hrest, split_on_slash]
    | cons c2 r2 =>
      rw [← hrest, ih (by simp [hrest]) (fun x hx => hns x (by simp [hx]))]

theorem split_no_slash {s : List Char} (hne : s ≠ [])
    (hns : ∀ c ∈ s, c ≠ '/') : split_path_steps s = [s] := by
  rw [split_path_steps, split_on_slash_no_slash s hne hns]
  simp [List.isEmpty_iff, hne]

theorem extract_some_of_ne_nil {s : List Char} (h : s ≠ []) :
    ∃ hd, extract_step_hardness s = some hd := by
  rw [extract_step_hardness]
  cases hg : s.getLast? with
  | none => exact absurd (List.getLast?_eq_none_iff.mp hg) h
  | some c => exact ⟨_, rfl⟩

/-- C7: for every range step string whose parsed end bound is strictly
below its parsed start bound, `translate_range_step_string_to_exploration_step`
returns `InvalidStepRange`, and `ExplorationPath::new` on that single-step
input surfaces the same error; in particular `9..7` is rejected. -/
theorem claim_C7_invalid_step_range (s : List Char) (d : Nat) (a b : Nat)
    (hr : step_is_range s = true)
    (ha : range_start_num s = some a)
    (hb : range_end_num s = some (.ok b))
    (hlt : b < a) :
    translate_range_step_string_to_exploration_step s =
      some (.error .InvalidStepRange) ∧
    ExplorationPath.new s d = some (.error .InvalidStepRange) := by
  have hne := step_is_range_ne_nil hr
  obtain ⟨hd, hhd⟩ := extract_some_of_ne_nil hne
  have htr : translate_range_step_string_to_exploration_step s =
      some (.error .InvalidStepRange) := by
    rw [translate_range_step_string_to_exploration_step]
    simp only [hhd, ha, hb]
    rw [if_pos hlt]
  refine ⟨htr, ?_⟩
  have hchars := step_is_range_chars hr
  have hcc : check_input_chars s = true := by
    rw [check_input_chars]
    simp only [Bool.and_eq_true, List.all_eq_true]
    refine ⟨by simp [List.isEmpty_iff, hne], ?_⟩
    intro c hc
    exact (hchars c hc).1
  have hsplit : split_path_steps s = [s] :=
    split_no_slash hne (fun c hc => (hchars c hc).2)
  have hsan : check_step_sanity s = true := by
    rw [check_step_sanity, hr]
    simp
  have hts : translate_step_string_to_exploration_step s d =
      some (.error .InvalidStepRange) := by
    rw [translate_step_string_to_exploration_step, if_pos hr]
    exact htr
  rw [ExplorationPath.new, if_neg (by simp [hcc])]
  simp only [hsplit, List.any_cons, List.any_nil, hsan, Bool.not_true,
    Bool.or_false]
  rw [if_neg (by simp)]
  simp only [translate_steps, hts]

/-- Witness for C7 at the concrete step `9..7`. -/
theorem claim_C7_witness :
    step_is_range ("9..7".toList) = true ∧
    range_start_num ("9..7".toList) = some 9 ∧
    range_end_num ("9..7".toList) = some (.ok 7) ∧
    (translate_range_step_string_to_exploration_step ("9..7".toList) =
        some (.error .InvalidStepRange) ∧
      ExplorationPath.new ("9..7".toList) 5 = some (.error .InvalidStepRange)) :=
  ⟨by decide, by decide, by decide,
   claim_C7_invalid_step_range ("9..7".toList) 5 9 7 (by decide) (by decide)
     (by decide) (by decide)⟩

/-- C8: whenever the finds list is empty,
`get_details_of_finds_from_bitcoincore` returns success with the
retriever unchanged — and it does so for every scan oracle whatsoever
(including one that always fails), so no scan request can have been
performed. The user-visible notice is a `println!` side effect outside
the embedded state. -/
theorem claim_C8_empty_finds_no_scan (r : Retriever)
    (scan_utxo_set : List PathDescriptorPair →
      Except RetrieverError (List PathScanResultDescriptorTrio))
    (h : r.finds = []) :
    r.get_details_of_finds_from_bitcoincore scan_utxo_set = .ok r := by
  rw [Retriever.get_details_of_finds_from_bitcoincore, if_pos (by simp [h])]

/-- Witness for C8 at the empty retriever and an always-failing oracle. -/
theorem claim_C8_witness :
    (Retriever.mk [] none).finds = [] ∧
      (Retriever.mk [] none).get_details_of_finds_from_bitcoincore
          (fun _ => .error .BitcoincoreRpcUnreachable) =
        .ok (Retriever.mk [] none) :=
  ⟨rfl, claim_C8_empty_finds_no_scan _ _ rfl⟩

/-- C9: there is an input made only of admissible characters — a step
whose numeral exceeds `u32::MAX`, here `4294967296` — on which
`ExplorationPath::new` panics (the `str::parse::<u32>` result is
unwrapped; `none` models the panic) instead of returning a
`RetrieverError`. -/
theorem claim_C9_parse_unwrap_panic :
    check_input_chars ("4294967296".toList) = true ∧
    ExplorationPath.new ("4294967296".toList) 5 = none :=
  ⟨by decide, by decide⟩

/-- C10: when the finds list is empty,
`get_details_of_finds_from_bitcoincore` leaves `detailed_finds` unset
(`None`), so a subsequent `get_detailed_finds` still returns the
`DetailsHaveNotBeenFetched` error even though the call itself succeeded. -/
theorem claim_C10_details_stay_unset (r r2 : Retriever)
    (scan_utxo_set : List PathDescriptorPair →
      Except RetrieverError (List PathScanResultDescriptorTrio))
    (hfinds : r.finds = [])
    (hdet : r.detailed_finds = none)
    (h : r.get_details_of_finds_from_bitcoincore scan_utxo_set = .ok r2) :
    r2.detailed_finds = none ∧
      r2.get_detailed_finds = .error .DetailsHaveNotBeenFetched := by
  rw [Retriever.get_details_of_finds_from_bitcoincore,
    if_pos (by simp [hfinds])] at h
  cases h
  refine ⟨hdet, ?_⟩
  rw [Retriever.get_detailed_finds, hdet]

/-- Witness for C10 at the empty retriever. -/
theorem claim_C10_witness :
    (Retriever.mk [] none).finds = [] ∧
    (Retriever.mk [] none).detailed_finds = none ∧
    ((Retriever.mk [] none).detailed_finds = none ∧
      (Retriever.mk [] none).get_detailed_finds =
        .error .DetailsHaveNotBeenFetched) :=
  ⟨rfl, rfl,
   claim_C10_details_stay_unset (Retriever.mk [] none) (Retriever.mk [] none)
     (fun _ => .error .BitcoincoreRpcUnreachable) rfl rfl rfl⟩
